import Mathlib

/-!
Verification of the decoding core of `min-dalle`
(`src/min_dalle/models/dalle_bart_decoder_torch.py`).

Tensors are shallow-embedded as nested lists of rationals: a batch of
embedding vectors is a `List (List ℚ)`, a per-layer key/value cache is a
`List (List (List ℚ))` (row = batch slot of the `2*batch`-row cache tensor,
then position, then the flattened head × head-dim vector).  `torch.exp` is
carried as an explicit function argument `expf : ℚ → ℚ`, and learned weights
(`nn.Linear`, `nn.Embedding`, `nn.LayerNorm`, `GLUTorch`) are carried as
function-valued fields, since at run time they are data produced by the
(external) weight loader.  Machine floats are idealised as exact rationals.
-/

/-- Componentwise addition of two vectors; the longer tail is kept, which
agrees with `torch`'s broadcasting on the shapes actually used (equal
lengths). -/
def vadd : List ℚ → List ℚ → List ℚ
  | [], ys => ys
  | xs, [] => xs
  | x :: xs, y :: ys => (x + y) :: vadd xs ys

/-- Dot product of two vectors (zip-truncating). -/
def dot (x y : List ℚ) : ℚ :=
  (List.zipWith (· * ·) x y).sum

/-- Modelled from the spec: the scaled-dot-product attention primitive of
`AttentionTorch.forward`, whose code lives in
`dalle_bart_encoder_torch.py` and is not under `src/` (§4.1 of the spec):
scores are query·key, a masked position carries exactly zero probability
after the softmax, the surviving weights are normalised, the values are
combined, and the result goes through the output projection.  The head
decomposition is not represented (no claim depends on it); the softmax is
expressed directly with weight `0` at masked positions, which is the
guarantee the spec demands of the `-infinity` masking. -/
def attendOne (expf : ℚ → ℚ) (outProj : List ℚ → List ℚ)
    (keys values : List (List ℚ)) (query : List ℚ) (mask : List Bool) :
    List ℚ :=
  let scores := keys.map (dot query)
  let weights := List.zipWith (fun m s => if m then expf s else 0) mask scores
  let z := weights.sum
  let combined := (List.zipWith (fun w v => v.map (fun c => w / z * c)) weights values).foldr vadd []
  outProj combined

/-- The learned weights of an `AttentionTorch` module (base class of both
decoder attention modules, defined in `dalle_bart_encoder_torch.py`):
the four projections and the scalar `head_dim ** 0.5` by which queries are
divided (carried as a parameter because the square root is irrational). -/
structure AttentionTorch where
  kProj : List ℚ → List ℚ
  vProj : List ℚ → List ℚ
  qProj : List ℚ → List ℚ
  outProj : List ℚ → List ℚ
  sqrtHeadDim : ℚ

/-- Modelled from the spec: the batched attention entry point
`AttentionTorch.forward(keys, values, queries, attention_mask)` (not under
`src/`), applied row by row over the batch dimension. -/
def AttentionTorch.forward (a : AttentionTorch) (expf : ℚ → ℚ)
    (keys values : List (List (List ℚ))) (queries : List (List ℚ))
    (attentionMask : List (List Bool)) : List (List ℚ) :=
  (List.range queries.length).map fun b =>
    attendOne expf a.outProj (keys.getD b []) (values.getD b [])
      (queries.getD b []) (attentionMask.getD b [])

/-- `DecoderCrossAttentionTorch.forward` (source lines 10-26): keys and
values are projected fresh from the encoder state, queries from the decoder
state and scaled by `1 / head_dim ** 0.5`, then the attention primitive is
applied under the padding mask. -/
def DecoderCrossAttentionTorch.forward (a : AttentionTorch) (expf : ℚ → ℚ)
    (decoderState : List (List ℚ)) (encoderState : List (List (List ℚ)))
    (attentionMask : List (List Bool)) : List (List ℚ) :=
  let keys := encoderState.map (List.map a.kProj)
  let values := encoderState.map (List.map a.vProj)
  let queries := decoderState.map fun s => (a.qProj s).map (fun c => c / a.sqrtHeadDim)
  AttentionTorch.forward a expf keys values queries attentionMask

/-- `DecoderSelfAttentionTorch.forward` (source lines 29-56).  The new
token's key and value are projected from the decoder state (one row per
batch slot, keys rows followed by values rows, as `torch.cat([keys,
values])` along dim 0).  The update
`torch.where(token_mask[None, :, None, None], torch.cat([keys, values]),
keys_values)` with `token_mask = arange(token_count) == token_index`
selects the new key/value exactly at position `token_index` and keeps the
cache everywhere else, i.e. it overwrites slot `token_index` of every row:
`row.set token_index nkv`.  The attention then runs over the merged cache
split back into keys (`[:batch_count]`) and values (`[batch_count:]`). -/
def DecoderSelfAttentionTorch.forward (a : AttentionTorch) (expf : ℚ → ℚ)
    (decoderState : List (List ℚ)) (keysValues : List (List (List ℚ)))
    (attentionMask : List (List Bool)) (tokenIndex : ℕ) :
    List (List ℚ) × List (List (List ℚ)) :=
  let batchCount := decoderState.length
  let keys := decoderState.map a.kProj
  let values := decoderState.map a.vProj
  let merged := List.zipWith (fun row nkv => row.set tokenIndex nkv)
    keysValues (keys ++ values)
  let queries := decoderState.map fun s => (a.qProj s).map (fun c => c / a.sqrtHeadDim)
  (AttentionTorch.forward a expf (merged.take batchCount)
    (merged.drop batchCount) queries attentionMask, merged)

/-- One row of the causal self-attention mask built by
`DecoderLayerTorch.forward` (source lines 87-90):
`arange(image_token_count) < token_index + 1`. -/
def selfAttnMaskRow (imageTokenCount tokenIndex : ℕ) : List Bool :=
  (List.range imageTokenCount).map fun p => decide (p < tokenIndex + 1)

/-- The stacked causal mask `torch.stack([self_attn_mask] * batch)` (source
line 92).  It is a function of the step index alone - in particular it does
not read the cache, so placeholder cache content cannot influence it. -/
def selfAttnMaskStacked (batchCount imageTokenCount tokenIndex : ℕ) :
    List (List Bool) :=
  List.replicate batchCount (selfAttnMaskRow imageTokenCount tokenIndex)

/-- A decoder layer (`DecoderLayerTorch.__init__`, source lines 59-74):
the two attention modules and the learned normalisation / feed-forward
maps.  `nn.LayerNorm` and `GLUTorch` (the latter defined in
`dalle_bart_encoder_torch.py`, not under `src/`) are carried as abstract
learned maps; no claim depends on their internals. -/
structure DecoderLayerTorch where
  imageTokenCount : ℕ
  preSelfAttnLayerNorm : List ℚ → List ℚ
  selfAttn : AttentionTorch
  selfAttnLayerNorm : List ℚ → List ℚ
  preEncoderAttnLayerNorm : List ℚ → List ℚ
  encoderAttn : AttentionTorch
  encoderAttnLayerNorm : List ℚ → List ℚ
  glu : List ℚ → List ℚ

/-- `DecoderLayerTorch.forward` (source lines 76-118): pre-norm →
self-attention with cache under the causal mask → post-norm → residual;
pre-norm → cross-attention to the encoder state under the padding mask →
post-norm → residual; GLU → residual.  Returns the new decoder state and
the updated self-attention cache. -/
def DecoderLayerTorch.forward (layer : DecoderLayerTorch) (expf : ℚ → ℚ)
    (decoderState : List (List ℚ)) (encoderState : List (List (List ℚ)))
    (keysValuesState : List (List (List ℚ)))
    (attentionMask : List (List Bool)) (tokenIndex : ℕ) :
    List (List ℚ) × List (List (List ℚ)) :=
  let residual := decoderState
  let ds1 := decoderState.map layer.preSelfAttnLayerNorm
  let selfAttnMask := selfAttnMaskStacked ds1.length layer.imageTokenCount tokenIndex
  let res := DecoderSelfAttentionTorch.forward layer.selfAttn expf ds1
    keysValuesState selfAttnMask tokenIndex
  let ds2 := res.1.map layer.selfAttnLayerNorm
  let ds3 := List.zipWith vadd residual ds2
  let residual2 := ds3
  let ds4 := ds3.map layer.preEncoderAttnLayerNorm
  let ds5 := DecoderCrossAttentionTorch.forward layer.encoderAttn expf ds4
    encoderState attentionMask
  let ds6 := ds5.map layer.encoderAttnLayerNorm
  let ds7 := List.zipWith vadd residual2 ds6
  let residual3 := ds7
  let ds8 := ds7.map layer.glu
  (List.zipWith vadd residual3 ds8, res.2)

/-- The classifier-free-guidance blend of the two branch logit vectors
(source line 204): `a * logits[0, -1] + (1 - a) * logits[1, -1]`. -/
def blendLogits (a : ℚ) (logitsCond logitsUncond : List ℚ) : List ℚ :=
  List.zipWith (fun c u => a * c + (1 - a) * u) logitsCond logitsUncond

/-- The truncated sampling weights (source lines 206-217):
`top_logits = logits.sort(descending=True)[0][:50]`, then
`torch.where(logits < top_logits[-1], 0, exp(logits - top_logits[0]))`. -/
def truncProbs (expf : ℚ → ℚ) (logits : List ℚ) : List ℚ :=
  let topLogits := (logits.insertionSort (· ≥ ·)).take 50
  let maxLogit := topLogits.getD 0 0
  let cutoff := topLogits.getLastD 0
  logits.map fun x => if x < cutoff then 0 else expf (x - maxLogit)

/-- Walk of the cumulative weights: `pick w u` is the least index whose
cumulative weight exceeds `u` (the standard inverse-transform draw from an
unnormalised categorical distribution). -/
def pick : List ℚ → ℚ → ℕ
  | [], _ => 0
  | x :: rest, u => if u < x then 0 else pick rest (u - x) + 1

/-- `torch.multinomial(probs, 1)` (source line 247): one draw from the
categorical distribution with unnormalised weights `w`, driven by a random
number `u ∈ [0, 1)`; torch normalises internally, represented here by
scaling `u` to the total mass. -/
def multinomial (w : List ℚ) (u : ℚ) : ℕ :=
  pick w (u * w.sum)

/-- The learned weights of one decoder layer, as produced by the module
constructors invoked in `DecoderLayerTorch.__init__`. -/
structure DecoderLayerWeights where
  preSelfAttnLayerNorm : List ℚ → List ℚ
  selfAttn : AttentionTorch
  selfAttnLayerNorm : List ℚ → List ℚ
  preEncoderAttnLayerNorm : List ℚ → List ℚ
  encoderAttn : AttentionTorch
  encoderAttnLayerNorm : List ℚ → List ℚ
  glu : List ℚ → List ℚ

/-- The learned weights consumed by `DalleBartDecoderTorch.__init__`
(`nn.Embedding`, `nn.LayerNorm`, `nn.Linear`, and the per-layer modules);
at construction torch fills them with (externally supplied or random)
data, so the embedding quantifies over them. -/
structure DecoderWeights where
  embedTokens : ℕ → List ℚ
  embedPositions : ℕ → List ℚ
  layerWeights : ℕ → DecoderLayerWeights
  layernormEmbedding : List ℚ → List ℚ
  finalLn : List ℚ → List ℚ
  lmHeadRow : ℕ → List ℚ

/-- The decoder stack state after `DalleBartDecoderTorch.__init__`
(source lines 122-172). -/
structure DalleBartDecoderTorch where
  isVerbose : Bool
  layerCount : ℕ
  sampleTokenCount : ℕ
  startToken : ℕ
  padToken : ℕ
  conditionFactor : ℚ
  imageTokenCount : ℕ
  imageVocabSize : ℕ
  embedTokens : ℕ → List ℚ
  embedPositions : ℕ → List ℚ
  layers : List DecoderLayerTorch
  layernormEmbedding : List ℚ → List ℚ
  finalLn : List ℚ → List ℚ
  lmHead : List (List ℚ)
  keysValuesStateShape : ℕ × ℕ × ℕ × ℕ

/-- `DalleBartDecoderTorch.__init__` (source lines 122-172).  Note the
hardcoded sentinels: `pad_token = torch.tensor([1])` (line 140) and
`condition_factor = torch.tensor([10])` (line 141) - neither is a
constructor parameter.  `lm_head = nn.Linear(embed_count,
image_vocab_size + 1, bias=False)` fixes the output row count, and
`keys_values_state_shape = (layer_count * 2 * batch_count,
image_token_count, attention_head_count, embed_count //
attention_head_count)`. -/
def DalleBartDecoderTorch.init (imageVocabSize imageTokenCount
    sampleTokenCount embedCount attentionHeadCount gluEmbedCount
    layerCount batchCount startToken : ℕ) (isVerbose : Bool)
    (w : DecoderWeights) : DalleBartDecoderTorch :=
  { isVerbose := isVerbose
    layerCount := layerCount
    sampleTokenCount := sampleTokenCount
    startToken := startToken
    padToken := 1
    conditionFactor := 10
    imageTokenCount := imageTokenCount
    imageVocabSize := imageVocabSize
    embedTokens := w.embedTokens
    embedPositions := w.embedPositions
    layers := (List.range layerCount).map fun i =>
      { imageTokenCount := imageTokenCount
        preSelfAttnLayerNorm := (w.layerWeights i).preSelfAttnLayerNorm
        selfAttn := (w.layerWeights i).selfAttn
        selfAttnLayerNorm := (w.layerWeights i).selfAttnLayerNorm
        preEncoderAttnLayerNorm := (w.layerWeights i).preEncoderAttnLayerNorm
        encoderAttn := (w.layerWeights i).encoderAttn
        encoderAttnLayerNorm := (w.layerWeights i).encoderAttnLayerNorm
        glu := (w.layerWeights i).glu }
    layernormEmbedding := w.layernormEmbedding
    finalLn := w.finalLn
    lmHead := (List.range (imageVocabSize + 1)).map w.lmHeadRow
    keysValuesStateShape :=
      (layerCount * 2 * batchCount, imageTokenCount, attentionHeadCount,
        embedCount / attentionHeadCount) }

/-- The cross-attention padding mask of `decode_step` (source line 181):
`text_tokens.not_equal(self.pad_token)`. -/
def crossAttentionMask (d : DalleBartDecoderTorch)
    (textTokens : List (List ℕ)) : List (List Bool) :=
  textTokens.map fun row => row.map fun t => decide (t ≠ d.padToken)

/-- The embedded decoder state entering the layer stack (source lines
183-188): `prev_token = cat([prev_token_and_index[:1]] * batch_count)`,
`token_index = cat([prev_token_and_index[1:]] * batch_count)`, then token
embedding plus position embedding, then the embedding layer norm. -/
def decodeInitialState (d : DalleBartDecoderTorch) (batchCount : ℕ)
    (prevTokenAndIndex : List ℕ) : List (List ℚ) :=
  let prevToken := (List.replicate batchCount (prevTokenAndIndex.take 1)).flatten
  let tokenIndex := (List.replicate batchCount (prevTokenAndIndex.drop 1)).flatten
  (List.zipWith (fun t p => vadd (d.embedTokens t) (d.embedPositions p))
    prevToken tokenIndex).map d.layernormEmbedding

/-- The scalar step index handed to each layer (source line 197:
`token_index[:1]`, the first entry of the replicated index tensor). -/
def stepTokenIndex (batchCount : ℕ) (prevTokenAndIndex : List ℕ) : ℕ :=
  ((List.replicate batchCount (prevTokenAndIndex.drop 1)).flatten).getD 0 0

/-- The layer loop of `decode_step` (source lines 189-200): layer `i`
receives the cache slice `keys_values_state[i * 2 * batch_count :
(i + 1) * 2 * batch_count]`, and the per-layer updated caches are
concatenated back in order. -/
def runLayers (expf : ℚ → ℚ) (encoderState : List (List (List ℚ)))
    (attentionMask : List (List Bool)) (tokenIndex : ℕ) :
    List DecoderLayerTorch → List (List ℚ) → List (List (List ℚ)) →
    List (List ℚ) × List (List (List ℚ))
  | [], decoderState, _ => (decoderState, [])
  | layer :: rest, decoderState, keysValuesState =>
    let batchCount := encoderState.length
    let res := layer.forward expf decoderState encoderState
      (keysValuesState.take (2 * batchCount)) attentionMask tokenIndex
    let rest' := runLayers expf encoderState attentionMask tokenIndex rest
      res.1 (keysValuesState.drop (2 * batchCount))
    (rest'.1, res.2 ++ rest'.2)

/-- `DalleBartDecoderTorch.decode_step` (source lines 175-218): padding
mask, embedded state, layer stack with per-layer cache slices, final layer
norm, `lm_head` projection of both branches, guidance blend with
`self.condition_factor`, and the truncated sampling weights.  Returns the
weight vector and the updated cache. -/
def DalleBartDecoderTorch.decodeStep (d : DalleBartDecoderTorch)
    (expf : ℚ → ℚ) (textTokens : List (List ℕ))
    (encoderState : List (List (List ℚ)))
    (keysValuesState : List (List (List ℚ)))
    (prevTokenAndIndex : List ℕ) : List ℚ × List (List (List ℚ)) :=
  let attentionMask := crossAttentionMask d textTokens
  let batchCount := encoderState.length
  let decoderState := decodeInitialState d batchCount prevTokenAndIndex
  let res := runLayers expf encoderState attentionMask
    (stepTokenIndex batchCount prevTokenAndIndex) d.layers decoderState
    keysValuesState
  let dsN := res.1.map d.finalLn
  let logitsRows := dsN.map fun s => d.lmHead.map fun wrow => dot wrow s
  let logits := blendLogits d.conditionFactor (logitsRows.getD 0 [])
    (logitsRows.getD 1 [])
  (truncProbs expf logits, res.2)

/-- The blended logits computed inside `decode_step` (source lines
189-204): the final decoder state of both branches through `final_ln` and
`lm_head`, then `a * logits[0, -1] + (1 - a) * logits[1, -1]` with
`a = self.condition_factor`. -/
def DalleBartDecoderTorch.decodeStepLogits (d : DalleBartDecoderTorch)
    (expf : ℚ → ℚ) (textTokens : List (List ℕ))
    (encoderState : List (List (List ℚ)))
    (keysValuesState : List (List (List ℚ)))
    (prevTokenAndIndex : List ℕ) : List ℚ :=
  let res := runLayers expf encoderState (crossAttentionMask d textTokens)
    (stepTokenIndex encoderState.length prevTokenAndIndex) d.layers
    (decodeInitialState d encoderState.length prevTokenAndIndex)
    keysValuesState
  let dsN := res.1.map d.finalLn
  let logitsRows := dsN.map fun s => d.lmHead.map fun wrow => dot wrow s
  blendLogits d.conditionFactor (logitsRows.getD 0 []) (logitsRows.getD 1 [])

/-- The zero-initialised cache `torch.zeros(self.keys_values_state_shape)`
(source line 226), with the trailing head × head-dim block flattened. -/
def DalleBartDecoderTorch.initialCache (d : DalleBartDecoderTorch) :
    List (List (List ℚ)) :=
  List.replicate d.keysValuesStateShape.1
    (List.replicate d.keysValuesStateShape.2.1
      (List.replicate (d.keysValuesStateShape.2.2.1 * d.keysValuesStateShape.2.2.2) 0))

/-- The generation loop of `DalleBartDecoderTorch.forward` (source lines
221-255) after `n` steps: the image tokens sampled so far, the current
`image_token`, and the current cache.  Step `i` calls `decode_step` with
`prev_token_and_index = torch.cat([image_token, token_index])` and samples
the next token with `torch.multinomial`, driven by the random stream
`r`. -/
def DalleBartDecoderTorch.genAux (d : DalleBartDecoderTorch)
    (expf : ℚ → ℚ) (r : ℕ → ℚ) (textTokens : List (List ℕ))
    (encoderState : List (List (List ℚ))) :
    ℕ → List ℕ × ℕ × List (List (List ℚ))
  | 0 => ([], d.startToken, d.initialCache)
  | n + 1 =>
    let s := d.genAux expf r textTokens encoderState n
    let res := d.decodeStep expf textTokens encoderState s.2.2 [s.2.1, n]
    let imageToken := multinomial res.1 (r n)
    (s.1 ++ [imageToken], imageToken, res.2)

/-- `DalleBartDecoderTorch.forward` (source lines 221-255): run
`sample_token_count` steps and return the concatenated image tokens. -/
def DalleBartDecoderTorch.forward (d : DalleBartDecoderTorch)
    (expf : ℚ → ℚ) (r : ℕ → ℚ) (textTokens : List (List ℕ))
    (encoderState : List (List (List ℚ))) : List ℕ :=
  (d.genAux expf r textTokens encoderState d.sampleTokenCount).1

/-- Reading one cache entry: batch row `b`, position `p`. -/
def cacheEntry (cache : List (List (List ℚ))) (b p : ℕ) : List ℚ :=
  (cache.getD b []).getD p []

/-- Fixture: trivial attention weights used by concrete witnesses. -/
def trivAttention : AttentionTorch :=
  { kProj := fun v => v.map (2 * ·)
    vProj := fun v => v.map (3 * ·)
    qProj := fun _ => [1]
    outProj := id
    sqrtHeadDim := 1 }

/-- Fixture: trivial layer weights used by concrete witnesses. -/
def trivLayerWeights : DecoderLayerWeights :=
  { preSelfAttnLayerNorm := id
    selfAttn := trivAttention
    selfAttnLayerNorm := id
    preEncoderAttnLayerNorm := id
    encoderAttn := trivAttention
    encoderAttnLayerNorm := id
    glu := id }

/-- Fixture: trivial decoder weights used by concrete witnesses. -/
def trivWeights : DecoderWeights :=
  { embedTokens := fun t => [(t : ℚ)]
    embedPositions := fun p => [(p : ℚ) + 1]
    layerWeights := fun _ => trivLayerWeights
    layernormEmbedding := id
    finalLn := id
    lmHeadRow := fun v => [(v : ℚ) + 1] }

/-! ### Generic list lemmas -/

theorem getD_oob {α : Type} (l : List α) (i : ℕ) (d : α)
    (h : l.length ≤ i) : l.getD i d = d := by
  induction l generalizing i with
  | nil => rfl
  | cons a t ih =>
    cases i with
    | zero => simp at h
    | succ j => exact ih j (Nat.le_of_succ_le_succ h)

theorem getD_map_lt {α β : Type} (f : α → β) (d : β) (d' : α) :
    ∀ (l : List α) (i : ℕ), i < l.length →
      (l.map f).getD i d = f (l.getD i d') := by
  intro l
  induction l with
  | nil => intro i h; simp at h
  | cons a t ih =>
    intro i h
    cases i with
    | zero => rfl
    | succ j => exact ih j (Nat.lt_of_succ_lt_succ h)

theorem getD_replicate_lt {α : Type} (a d : α) :
    ∀ (n i : ℕ), i < n → (List.replicate n a).getD i d = a := by
  intro n
  induction n with
  | zero => intro i h; simp at h
  | succ m ih =>
    intro i h
    cases i with
    | zero => rfl
    | succ j => exact ih j (Nat.lt_of_succ_lt_succ h)

theorem getD_append_left {α : Type} (d : α) :
    ∀ (xs ys : List α) (i : ℕ), i < xs.length →
      (xs ++ ys).getD i d = xs.getD i d := by
  intro xs
  induction xs with
  | nil => intro ys i h; simp at h
  | cons a t ih =>
    intro ys i h
    cases i with
    | zero => rfl
    | succ j => exact ih ys j (Nat.lt_of_succ_lt_succ h)

theorem getD_append_ge {α : Type} (d : α) :
    ∀ (xs ys : List α) (i : ℕ), xs.length ≤ i →
      (xs ++ ys).getD i d = ys.getD (i - xs.length) d := by
  intro xs
  induction xs with
  | nil => intro ys i _; rfl
  | cons a t ih =>
    intro ys i h
    cases i with
    | zero => simp at h
    | succ j =>
      simpa using ih ys j (Nat.le_of_succ_le_succ h)

theorem getD_set_ne {α : Type} (x d : α) :
    ∀ (l : List α) (t p : ℕ), p ≠ t →
      (l.set t x).getD p d = l.getD p d := by
  intro l
  induction l with
  | nil => intro t p _; rfl
  | cons a r ih =>
    intro t p hp
    cases t with
    | zero =>
      cases p with
      | zero => exact absurd rfl hp
      | succ q => rfl
    | succ u =>
      cases p with
      | zero => rfl
      | succ q => exact ih u q (fun hq => hp (by rw [hq]))

theorem getD_set_self {α : Type} (x d : α) :
    ∀ (l : List α) (t : ℕ), t < l.length →
      (l.set t x).getD t d = x := by
  intro l
  induction l with
  | nil => intro t h; simp at h
  | cons a r ih =>
    intro t h
    cases t with
    | zero => rfl
    | succ u => exact ih u (Nat.lt_of_succ_lt_succ h)

theorem getD_take_lt {α : Type} (d : α) :
    ∀ (l : List α) (n i : ℕ), i < n →
      (l.take n).getD i d = l.getD i d := by
  intro l
  induction l with
  | nil => intro n i _; simp
  | cons a t ih =>
    intro n i h
    cases n with
    | zero => simp at h
    | succ m =>
      cases i with
      | zero => rfl
      | succ j => exact ih m j (Nat.lt_of_succ_lt_succ h)

theorem getD_drop {α : Type} (d : α) :
    ∀ (l : List α) (n i : ℕ), (l.drop n).getD i d = l.getD (n + i) d := by
  intro l
  induction l with
  | nil => intro n i; simp
  | cons a t ih =>
    intro n i
    cases n with
    | zero => simp
    | succ m => simpa [Nat.succ_add] using ih m i

theorem getD_zipWith_set {α : Type} (t : ℕ) (d : α) :
    ∀ (xs : List (List α)) (ys : List α) (b : ℕ), xs.length = ys.length →
      (List.zipWith (fun row nkv => row.set t nkv) xs ys).getD b [] =
        (xs.getD b []).set t (ys.getD b d) := by
  intro xs
  induction xs with
  | nil =>
    intro ys b h
    cases ys with
    | nil => rfl
    | cons y yt => simp at h
  | cons x xt ih =>
    intro ys b h
    cases ys with
    | nil => simp at h
    | cons y yt =>
      cases b with
      | zero => rfl
      | succ c => exact ih yt c (by simpa using h)

theorem getLastD_eq_getD {α : Type} (d : α) :
    ∀ (l : List α), l ≠ [] → l.getLastD d = l.getD (l.length - 1) d := by
  intro l
  induction l with
  | nil => intro h; exact absurd rfl h
  | cons a t ih =>
    intro _
    cases t with
    | nil => rfl
    | cons b u =>
      have h2 := ih (by simp)
      simpa using h2

theorem flatten_replicate_singleton {α : Type} (a : α) :
    ∀ (n : ℕ), (List.replicate n [a]).flatten = List.replicate n a := by
  intro n
  induction n with
  | zero => rfl
  | succ m ih => simpa [List.replicate_succ] using ih

theorem zipWith_replicate_replicate {α β γ : Type} (f : α → β → γ)
    (a : α) (b : β) :
    ∀ (n : ℕ), List.zipWith f (List.replicate n a) (List.replicate n b) =
      List.replicate n (f a b) := by
  intro n
  induction n with
  | zero => rfl
  | succ m ih => simpa [List.replicate_succ] using ih

theorem list_sum_pos (l : List ℚ) (hnn : ∀ x ∈ l, 0 ≤ x)
    (x : ℚ) (hx : x ∈ l) (hxpos : 0 < x) : 0 < l.sum := by
  induction l with
  | nil => simp at hx
  | cons a t ih =>
    rw [List.sum_cons]
    rcases List.mem_cons.mp hx with h | h
    · subst h
      have ht : 0 ≤ t.sum := List.sum_nonneg fun y hy => hnn y (List.mem_cons_of_mem _ hy)
      linarith
    · have ha : 0 ≤ a := hnn a (List.mem_cons_self _ _)
      have := ih (fun y hy => hnn y (List.mem_cons_of_mem _ hy)) h
      linarith

theorem getD_mem {α : Type} (d : α) :
    ∀ (l : List α) (i : ℕ), i < l.length → l.getD i d ∈ l := by
  intro l
  induction l with
  | nil => intro i h; simp at h
  | cons a t ih =>
    intro i h
    cases i with
    | zero => exact List.mem_cons_self _ _
    | succ j => exact List.mem_cons_of_mem _ (ih j (Nat.lt_of_succ_lt_succ h))

theorem mem_exists_getD {α : Type} (d : α) :
    ∀ (l : List α) (x : α), x ∈ l → ∃ i, i < l.length ∧ l.getD i d = x := by
  intro l
  induction l with
  | nil => intro x hx; simp at hx
  | cons a t ih =>
    intro x hx
    rcases List.mem_cons.mp hx with h | h
    · exact ⟨0, by simp, h.symm⟩
    · rcases ih x h with ⟨i, hi, hgi⟩
      exact ⟨i + 1, by simpa using hi, hgi⟩

theorem drop_getD_cons {α : Type} (d : α) :
    ∀ (l : List α) (n : ℕ), n < l.length →
      l.drop n = l.getD n d :: l.drop (n + 1) := by
  intro l
  induction l with
  | nil => intro n h; simp at h
  | cons a t ih =>
    intro n h
    cases n with
    | zero => rfl
    | succ m => simpa using ih m (Nat.lt_of_succ_lt_succ h)

/-! ### Facts about the descending sort used by `truncProbs` -/

theorem sorted_head_ge (l : List ℚ) (x : ℚ) (hx : x ∈ l) :
    x ≤ (l.insertionSort (· ≥ ·)).getD 0 0 := by
  have hmem : x ∈ l.insertionSort (· ≥ ·) :=
    ((List.perm_insertionSort (· ≥ ·) l).mem_iff).mpr hx
  have hs : List.Sorted (· ≥ ·) (l.insertionSort (· ≥ ·)) :=
    List.sorted_insertionSort _ l
  cases hsort : l.insertionSort (· ≥ ·) with
  | nil => rw [hsort] at hmem; simp at hmem
  | cons a t =>
    rw [hsort] at hmem hs
    rcases List.mem_cons.mp hmem with h | h
    · simp [h]
    · simpa using List.rel_of_sorted_cons hs x h

theorem sorted_head_mem (l : List ℚ) (hl : l ≠ []) :
    (l.insertionSort (· ≥ ·)).getD 0 0 ∈ l := by
  have hlen : (l.insertionSort (· ≥ ·)).length = l.length :=
    (List.perm_insertionSort (· ≥ ·) l).length_eq
  have hpos : 0 < (l.insertionSort (· ≥ ·)).length := by
    rw [hlen]; exact List.length_pos.mpr hl
  exact ((List.perm_insertionSort (· ≥ ·) l).mem_iff).mp
    (getD_mem 0 _ 0 hpos)

theorem cutoff_mem (l : List ℚ) (hl : l ≠ []) :
    ((l.insertionSort (· ≥ ·)).take 50).getLastD 0 ∈ l := by
  have hlen : (l.insertionSort (· ≥ ·)).length = l.length :=
    (List.perm_insertionSort (· ≥ ·) l).length_eq
  have hpos : 0 < ((l.insertionSort (· ≥ ·)).take 50).length := by
    rw [List.length_take]
    exact lt_min (by norm_num) (by rw [hlen]; exact List.length_pos.mpr hl)
  have hne : (l.insertionSort (· ≥ ·)).take 50 ≠ [] :=
    List.length_pos.mp hpos
  have h1 : ((l.insertionSort (· ≥ ·)).take 50).getLastD 0 ∈
      (l.insertionSort (· ≥ ·)).take 50 := by
    rw [getLastD_eq_getD 0 _ hne]
    exact getD_mem 0 _ _ (by omega)
  exact ((List.perm_insertionSort (· ≥ ·) l).mem_iff).mp
    (List.take_subset _ _ h1)

theorem cutoff_le_head (l : List ℚ) (hl : l ≠ []) :
    ((l.insertionSort (· ≥ ·)).take 50).getLastD 0 ≤
      (l.insertionSort (· ≥ ·)).getD 0 0 :=
  sorted_head_ge l _ (cutoff_mem l hl)

theorem cutoff_eq_getD_49 (l : List ℚ) (h50 : 50 ≤ l.length) :
    ((l.insertionSort (· ≥ ·)).take 50).getLastD 0 =
      (l.insertionSort (· ≥ ·)).getD 49 0 := by
  have hlen : (l.insertionSort (· ≥ ·)).length = l.length :=
    (List.perm_insertionSort (· ≥ ·) l).length_eq
  have hlen50 : ((l.insertionSort (· ≥ ·)).take 50).length = 50 := by
    rw [List.length_take]; omega
  have hne : (l.insertionSort (· ≥ ·)).take 50 ≠ [] := by
    intro h; rw [h] at hlen50; simp at hlen50
  rw [getLastD_eq_getD 0 _ hne, hlen50]
  exact getD_take_lt 0 _ 50 49 (by norm_num)

theorem countP_gt_lt_50 (l : List ℚ) (h50 : 50 ≤ l.length) (x : ℚ)
    (hx : ((l.insertionSort (· ≥ ·)).take 50).getLastD 0 ≤ x) :
    l.countP (fun y => decide (x < y)) < 50 := by
  have hlen : (l.insertionSort (· ≥ ·)).length = l.length :=
    (List.perm_insertionSort (· ≥ ·) l).length_eq
  have hperm : l.countP (fun y => decide (x < y)) =
      (l.insertionSort (· ≥ ·)).countP (fun y => decide (x < y)) :=
    ((List.perm_insertionSort (· ≥ ·) l).countP_eq _).symm
  rw [hperm]
  have hsplit : l.insertionSort (· ≥ ·) =
      (l.insertionSort (· ≥ ·)).take 49 ++ (l.insertionSort (· ≥ ·)).drop 49 :=
    (List.take_append_drop 49 _).symm
  rw [hsplit, List.countP_append]
  have h1 : ((l.insertionSort (· ≥ ·)).take 49).countP (fun y => decide (x < y)) ≤ 49 := by
    calc ((l.insertionSort (· ≥ ·)).take 49).countP (fun y => decide (x < y))
        ≤ ((l.insertionSort (· ≥ ·)).take 49).length := List.countP_le_length _
      _ ≤ 49 := by rw [List.length_take]; omega
  have h49 : 49 < (l.insertionSort (· ≥ ·)).length := by omega
  have hdrop : (l.insertionSort (· ≥ ·)).drop 49 =
      (l.insertionSort (· ≥ ·)).getD 49 0 :: (l.insertionSort (· ≥ ·)).drop 50 :=
    drop_getD_cons 0 _ 49 h49
  have hsorted : List.Sorted (· ≥ ·) ((l.insertionSort (· ≥ ·)).drop 49) :=
    (List.sorted_insertionSort _ l).sublist (List.drop_sublist _ _)
  have hm : ((l.insertionSort (· ≥ ·)).take 50).getLastD 0 =
      (l.insertionSort (· ≥ ·)).getD 49 0 := cutoff_eq_getD_49 l h50
  have h2 : ((l.insertionSort (· ≥ ·)).drop 49).countP (fun y => decide (x < y)) = 0 := by
    rw [List.countP_eq_zero]
    intro y hy
    rw [hdrop] at hy hsorted
    rcases List.mem_cons.mp hy with h | h
    · subst h
      simpa using not_lt.mpr (le_trans (le_of_eq hm.symm) hx)
    · have hle : y ≤ (l.insertionSort (· ≥ ·)).getD 49 0 :=
        List.rel_of_sorted_cons hsorted y h
      have : y ≤ x := le_trans hle (le_trans (le_of_eq hm.symm) hx)
      simpa using not_lt.mpr this
  omega

/-! ### Facts about the truncated sampling weights -/

theorem truncProbs_length (expf : ℚ → ℚ) (l : List ℚ) :
    (truncProbs expf l).length = l.length := by
  simp [truncProbs]

theorem truncProbs_getD (expf : ℚ → ℚ) (l : List ℚ) (i : ℕ)
    (hi : i < l.length) :
    (truncProbs expf l).getD i 0 =
      if l.getD i 0 < ((l.insertionSort (· ≥ ·)).take 50).getLastD 0 then 0
      else expf (l.getD i 0 - (l.insertionSort (· ≥ ·)).getD 0 0) := by
  have hmax : ((l.insertionSort (· ≥ ·)).take 50).getD 0 0 =
      (l.insertionSort (· ≥ ·)).getD 0 0 :=
    getD_take_lt 0 _ 50 0 (by norm_num)
  simp only [truncProbs]
  rw [getD_map_lt _ 0 0 l i hi, hmax]

theorem truncProbs_nonneg (expf : ℚ → ℚ) (hpos : ∀ x, 0 < expf x)
    (l : List ℚ) : ∀ y ∈ truncProbs expf l, 0 ≤ y := by
  intro y hy
  simp only [truncProbs, List.mem_map] at hy
  rcases hy with ⟨x, _, hx⟩
  split at hx
  · exact le_of_eq hx
  · exact hx ▸ le_of_lt (hpos _)

theorem truncProbs_argmax (expf : ℚ → ℚ) (l : List ℚ) (i : ℕ)
    (hi : i < l.length)
    (hmax : ∀ j, j < l.length → l.getD j 0 ≤ l.getD i 0) :
    (truncProbs expf l).getD i 0 = expf 0 := by
  have hne : l ≠ [] := by
    intro h; rw [h] at hi; simp at hi
  have hle : l.getD i 0 ≤ (l.insertionSort (· ≥ ·)).getD 0 0 :=
    sorted_head_ge l _ (getD_mem 0 l i hi)
  have hge : (l.insertionSort (· ≥ ·)).getD 0 0 ≤ l.getD i 0 := by
    rcases mem_exists_getD 0 l _ (sorted_head_mem l hne) with ⟨j, hj, hgj⟩
    rw [← hgj]; exact hmax j hj
  have heq : l.getD i 0 = (l.insertionSort (· ≥ ·)).getD 0 0 :=
    le_antisymm hle hge
  have hcut : ¬ l.getD i 0 < ((l.insertionSort (· ≥ ·)).take 50).getLastD 0 :=
    not_lt.mpr (le_trans (cutoff_le_head l hne) (le_of_eq heq.symm))
  rw [truncProbs_getD expf l i hi, if_neg hcut, heq, sub_self]

theorem truncProbs_sum_pos (expf : ℚ → ℚ) (hpos : ∀ x, 0 < expf x)
    (l : List ℚ) (hl : l ≠ []) : 0 < (truncProbs expf l).sum := by
  rcases mem_exists_getD 0 l _ (sorted_head_mem l hl) with ⟨i, hi, hgi⟩
  have hmax : ∀ j, j < l.length → l.getD j 0 ≤ l.getD i 0 := by
    intro j hj
    rw [hgi]
    exact sorted_head_ge l _ (getD_mem 0 l j hj)
  have hone : (truncProbs expf l).getD i 0 = expf 0 :=
    truncProbs_argmax expf l i hi hmax
  have himem : (truncProbs expf l).getD i 0 ∈ truncProbs expf l :=
    getD_mem 0 _ i (by rw [truncProbs_length]; exact hi)
  exact list_sum_pos _ (truncProbs_nonneg expf hpos l) _ himem
    (by rw [hone]; exact hpos 0)

theorem truncProbs_support_le_cutoff (expf : ℚ → ℚ) (l : List ℚ) (i : ℕ)
    (hi : i < l.length) (hne : (truncProbs expf l).getD i 0 ≠ 0) :
    ((l.insertionSort (· ≥ ·)).take 50).getLastD 0 ≤ l.getD i 0 := by
  by_contra hlt
  rw [truncProbs_getD expf l i hi, if_pos (not_le.mp hlt)] at hne
  exact hne rfl

/-! ### Facts about the categorical draw -/

theorem pick_lt_length :
    ∀ (w : List ℚ) (u : ℚ), 0 ≤ u → u < w.sum → pick w u < w.length := by
  intro w
  induction w with
  | nil => intro u h0 hs; simp at hs; linarith
  | cons x rest ih =>
    intro u h0 hs
    rw [pick]
    by_cases hx : u < x
    · simp [hx]
    · rw [if_neg hx]
      have h0' : 0 ≤ u - x := by linarith [not_lt.mp hx]
      have hs' : u - x < rest.sum := by
        rw [List.sum_cons] at hs; linarith
      simpa using ih (u - x) h0' hs'

theorem pick_weight_pos :
    ∀ (w : List ℚ) (u : ℚ), 0 ≤ u → u < w.sum →
      0 < w.getD (pick w u) 0 := by
  intro w
  induction w with
  | nil => intro u h0 hs; simp at hs; linarith
  | cons x rest ih =>
    intro u h0 hs
    rw [pick]
    by_cases hx : u < x
    · simpa [hx] using lt_of_le_of_lt h0 hx
    · rw [if_neg hx]
      have h0' : 0 ≤ u - x := by linarith [not_lt.mp hx]
      have hs' : u - x < rest.sum := by
        rw [List.sum_cons] at hs; linarith
      simpa using ih (u - x) h0' hs'

theorem multinomial_lt_length (w : List ℚ) (u : ℚ) (hu0 : 0 ≤ u)
    (hu1 : u < 1) (hsum : 0 < w.sum) : multinomial w u < w.length := by
  refine pick_lt_length w (u * w.sum) (mul_nonneg hu0 (le_of_lt hsum)) ?_
  exact mul_lt_of_lt_one_left hsum hu1

theorem multinomial_weight_pos (w : List ℚ) (u : ℚ) (hu0 : 0 ≤ u)
    (hu1 : u < 1) (hsum : 0 < w.sum) :
    0 < w.getD (multinomial w u) 0 := by
  refine pick_weight_pos w (u * w.sum) (mul_nonneg hu0 (le_of_lt hsum)) ?_
  exact mul_lt_of_lt_one_left hsum hu1

/-! ### Shape preservation through the layer stack -/

theorem attention_forward_length (a : AttentionTorch) (expf : ℚ → ℚ)
    (keys values : List (List (List ℚ))) (queries : List (List ℚ))
    (mask : List (List Bool)) :
    (AttentionTorch.forward a expf keys values queries mask).length =
      queries.length := by
  simp [AttentionTorch.forward]

theorem selfattn_forward_fst_length (a : AttentionTorch) (expf : ℚ → ℚ)
    (ds : List (List ℚ)) (kvs : List (List (List ℚ)))
    (mask : List (List Bool)) (t : ℕ) :
    (DecoderSelfAttentionTorch.forward a expf ds kvs mask t).1.length =
      ds.length := by
  simp [DecoderSelfAttentionTorch.forward, attention_forward_length]

theorem layer_forward_fst_length (layer : DecoderLayerTorch) (expf : ℚ → ℚ)
    (ds : List (List ℚ)) (enc : List (List (List ℚ)))
    (kvs : List (List (List ℚ))) (mask : List (List Bool)) (t : ℕ) :
    (layer.forward expf ds enc kvs mask t).1.length = ds.length := by
  simp [DecoderLayerTorch.forward, DecoderSelfAttentionTorch.forward,
    DecoderCrossAttentionTorch.forward, AttentionTorch.forward]

theorem selfattn_forward_snd (a : AttentionTorch) (expf : ℚ → ℚ)
    (ds : List (List ℚ)) (kvs : List (List (List ℚ)))
    (mask : List (List Bool)) (t : ℕ) :
    (DecoderSelfAttentionTorch.forward a expf ds kvs mask t).2 =
      List.zipWith (fun row nkv => row.set t nkv) kvs
        (ds.map a.kProj ++ ds.map a.vProj) := rfl

theorem layer_forward_snd (layer : DecoderLayerTorch) (expf : ℚ → ℚ)
    (ds : List (List ℚ)) (enc : List (List (List ℚ)))
    (kvs : List (List (List ℚ))) (mask : List (List Bool)) (t : ℕ) :
    (layer.forward expf ds enc kvs mask t).2 =
      List.zipWith (fun row nkv => row.set t nkv) kvs
        ((ds.map layer.preSelfAttnLayerNorm).map layer.selfAttn.kProj ++
         (ds.map layer.preSelfAttnLayerNorm).map layer.selfAttn.vProj) := rfl

theorem layer_forward_snd_length (layer : DecoderLayerTorch) (expf : ℚ → ℚ)
    (ds : List (List ℚ)) (enc : List (List (List ℚ)))
    (kvs : List (List (List ℚ))) (mask : List (List Bool)) (t : ℕ)
    (hshape : kvs.length = 2 * ds.length) :
    (layer.forward expf ds enc kvs mask t).2.length = kvs.length := by
  rw [layer_forward_snd]
  simp [List.length_zipWith, List.length_map]
  omega

theorem layer_forward_cache_frame (layer : DecoderLayerTorch) (expf : ℚ → ℚ)
    (ds : List (List ℚ)) (enc : List (List (List ℚ)))
    (kvs : List (List (List ℚ))) (mask : List (List Bool)) (t : ℕ)
    (hshape : kvs.length = 2 * ds.length) (b p : ℕ) (hp : p ≠ t) :
    cacheEntry (layer.forward expf ds enc kvs mask t).2 b p =
      cacheEntry kvs b p := by
  rw [cacheEntry, layer_forward_snd,
    getD_zipWith_set t [] kvs _ b (by simp [List.length_map]; omega),
    getD_set_ne _ [] _ t p hp]
  rfl

theorem runLayers_fst_length (expf : ℚ → ℚ) (enc : List (List (List ℚ)))
    (mask : List (List Bool)) (t : ℕ) :
    ∀ (layers : List DecoderLayerTorch) (ds : List (List ℚ))
      (cache : List (List (List ℚ))),
      (runLayers expf enc mask t layers ds cache).1.length = ds.length := by
  intro layers
  induction layers with
  | nil => intro ds cache; rfl
  | cons layer rest ih =>
    intro ds cache
    rw [runLayers, ih, layer_forward_fst_length]

theorem runLayers_snd_length (expf : ℚ → ℚ) (enc : List (List (List ℚ)))
    (mask : List (List Bool)) (t : ℕ) :
    ∀ (layers : List DecoderLayerTorch) (ds : List (List ℚ))
      (cache : List (List (List ℚ))),
      cache.length = layers.length * (2 * enc.length) →
      ds.length = enc.length →
      (runLayers expf enc mask t layers ds cache).2.length = cache.length := by
  intro layers
  induction layers with
  | nil =>
    intro ds cache hcache _
    simp only [List.length_nil, Nat.zero_mul] at hcache
    rw [List.length_eq_zero] at hcache
    subst hcache
    rfl
  | cons layer rest ih =>
    intro ds cache hcache hds
    rw [runLayers]
    simp only [List.length_append]
    have hcache' : cache.length = rest.length * (2 * enc.length) + 2 * enc.length := by
      rw [hcache, List.length_cons, Nat.add_mul, Nat.one_mul]
    have hle : 2 * enc.length ≤ cache.length := by
      rw [hcache']
      exact Nat.le_add_left _ _
    have htake : (cache.take (2 * enc.length)).length = 2 * enc.length := by
      rw [List.length_take]
      omega
    have hslice : (cache.take (2 * enc.length)).length = 2 * ds.length := by
      rw [htake, hds]
    have h1 : (layer.forward expf ds enc (cache.take (2 * enc.length)) mask t).2.length =
        2 * enc.length := by
      rw [layer_forward_snd_length _ _ _ _ _ _ _ hslice, htake]
    have hdrop : (cache.drop (2 * enc.length)).length =
        rest.length * (2 * enc.length) := by
      rw [List.length_drop, hcache']
      omega
    have hds' : (layer.forward expf ds enc (cache.take (2 * enc.length)) mask t).1.length =
        enc.length := by
      rw [layer_forward_fst_length, hds]
    rw [h1, ih _ _ hdrop hds', hdrop, hcache']
    omega

theorem runLayers_cache_frame (expf : ℚ → ℚ) (enc : List (List (List ℚ)))
    (mask : List (List Bool)) (t : ℕ) :
    ∀ (layers : List DecoderLayerTorch) (ds : List (List ℚ))
      (cache : List (List (List ℚ))),
      cache.length = layers.length * (2 * enc.length) →
      ds.length = enc.length →
      ∀ b p, p ≠ t →
      cacheEntry (runLayers expf enc mask t layers ds cache).2 b p =
        cacheEntry cache b p := by
  intro layers
  induction layers with
  | nil =>
    intro ds cache hcache _ b p _
    simp only [List.length_nil, Nat.zero_mul] at hcache
    rw [List.length_eq_zero] at hcache
    subst hcache
    rfl
  | cons layer rest ih =>
    intro ds cache hcache hds b p hp
    rw [runLayers]
    have hcache' : cache.length = rest.length * (2 * enc.length) + 2 * enc.length := by
      rw [hcache, List.length_cons, Nat.add_mul, Nat.one_mul]
    have hle : 2 * enc.length ≤ cache.length := by
      rw [hcache']
      exact Nat.le_add_left _ _
    have htake : (cache.take (2 * enc.length)).length = 2 * enc.length := by
      rw [List.length_take]
      omega
    have hslice : (cache.take (2 * enc.length)).length = 2 * ds.length := by
      rw [htake, hds]
    have h1 : (layer.forward expf ds enc (cache.take (2 * enc.length)) mask t).2.length =
        2 * enc.length := by
      rw [layer_forward_snd_length _ _ _ _ _ _ _ hslice, htake]
    have hdrop : (cache.drop (2 * enc.length)).length =
        rest.length * (2 * enc.length) := by
      rw [List.length_drop, hcache']
      omega
    have hds' : (layer.forward expf ds enc (cache.take (2 * enc.length)) mask t).1.length =
        enc.length := by
      rw [layer_forward_fst_length, hds]
    by_cases hb : b < 2 * enc.length
    · rw [cacheEntry, getD_append_left _ _ _ b (by rw [h1]; exact hb)]
      have := layer_forward_cache_frame layer expf ds enc
        (cache.take (2 * enc.length)) mask t hslice b p hp
      rw [cacheEntry] at this
      rw [this, cacheEntry, getD_take_lt _ _ _ _ hb]
      rfl
    · push_neg at hb
      rw [cacheEntry, getD_append_ge _ _ _ b (by rw [h1]; exact hb), h1]
      have := ih _ (cache.drop (2 * enc.length)) hdrop hds' (b - 2 * enc.length) p hp
      rw [cacheEntry] at this
      rw [this, cacheEntry, getD_drop, Nat.add_sub_cancel' hb]
      rfl

/-! ### decode_step and the generation loop -/

theorem decodeInitialState_length (d : DalleBartDecoderTorch)
    (B tok idx : ℕ) : (decodeInitialState d B [tok, idx]).length = B := by
  simp [decodeInitialState, flatten_replicate_singleton]

theorem stepTokenIndex_eq (B tok idx : ℕ) (hB : 1 ≤ B) :
    stepTokenIndex B [tok, idx] = idx := by
  rw [stepTokenIndex]
  simp only [List.drop_succ_cons, List.drop_zero]
  rw [flatten_replicate_singleton]
  exact getD_replicate_lt idx 0 B 0 hB

theorem decodeStep_snd_eq (d : DalleBartDecoderTorch) (expf : ℚ → ℚ)
    (tt : List (List ℕ)) (enc : List (List (List ℚ)))
    (kv : List (List (List ℚ))) (l : List ℕ) :
    (d.decodeStep expf tt enc kv l).2 =
      (runLayers expf enc (crossAttentionMask d tt)
        (stepTokenIndex enc.length l) d.layers
        (decodeInitialState d enc.length l) kv).2 := rfl

theorem decodeStep_snd_length (d : DalleBartDecoderTorch) (expf : ℚ → ℚ)
    (tt : List (List ℕ)) (enc : List (List (List ℚ)))
    (kv : List (List (List ℚ))) (tok idx : ℕ)
    (hkv : kv.length = d.layers.length * (2 * enc.length)) :
    (d.decodeStep expf tt enc kv [tok, idx]).2.length = kv.length := by
  rw [decodeStep_snd_eq]
  exact runLayers_snd_length _ _ _ _ _ _ _ hkv
    (decodeInitialState_length d enc.length tok idx)

theorem decodeStep_cache_frame (d : DalleBartDecoderTorch) (expf : ℚ → ℚ)
    (tt : List (List ℕ)) (enc : List (List (List ℚ)))
    (kv : List (List (List ℚ))) (tok idx : ℕ)
    (hkv : kv.length = d.layers.length * (2 * enc.length))
    (b p : ℕ) (hp : p ≠ idx) :
    cacheEntry (d.decodeStep expf tt enc kv [tok, idx]).2 b p =
      cacheEntry kv b p := by
  rw [decodeStep_snd_eq]
  by_cases h0 : enc.length = 0
  · have hlen : (runLayers expf enc (crossAttentionMask d tt)
        (stepTokenIndex enc.length [tok, idx]) d.layers
        (decodeInitialState d enc.length [tok, idx]) kv).2.length = kv.length :=
      runLayers_snd_length _ _ _ _ _ _ _ hkv
        (decodeInitialState_length d enc.length tok idx)
    have hkv0 : kv.length = 0 := by rw [hkv, h0]; simp
    have ho : (runLayers expf enc (crossAttentionMask d tt)
        (stepTokenIndex enc.length [tok, idx]) d.layers
        (decodeInitialState d enc.length [tok, idx]) kv).2 = [] :=
      List.length_eq_zero.mp (by rw [hlen, hkv0])
    have hk : kv = [] := List.length_eq_zero.mp hkv0
    rw [ho, hk]
  · have hidx : stepTokenIndex enc.length [tok, idx] = idx :=
      stepTokenIndex_eq _ _ _ (Nat.one_le_iff_ne_zero.mpr h0)
    rw [hidx]
    exact runLayers_cache_frame expf enc _ idx d.layers _ kv hkv
      (decodeInitialState_length d enc.length tok idx) b p hp

theorem genAux_succ (d : DalleBartDecoderTorch) (expf : ℚ → ℚ) (r : ℕ → ℚ)
    (tt : List (List ℕ)) (enc : List (List (List ℚ))) (n : ℕ) :
    d.genAux expf r tt enc (n + 1) =
      ((d.genAux expf r tt enc n).1 ++
        [multinomial (d.decodeStep expf tt enc
          (d.genAux expf r tt enc n).2.2
          [(d.genAux expf r tt enc n).2.1, n]).1 (r n)],
       multinomial (d.decodeStep expf tt enc
          (d.genAux expf r tt enc n).2.2
          [(d.genAux expf r tt enc n).2.1, n]).1 (r n),
       (d.decodeStep expf tt enc (d.genAux expf r tt enc n).2.2
          [(d.genAux expf r tt enc n).2.1, n]).2) := rfl

theorem genAux_cache_length (d : DalleBartDecoderTorch) (expf : ℚ → ℚ)
    (r : ℕ → ℚ) (tt : List (List ℕ)) (enc : List (List (List ℚ)))
    (hinit : d.initialCache.length = d.layers.length * (2 * enc.length)) :
    ∀ n, (d.genAux expf r tt enc n).2.2.length =
      d.layers.length * (2 * enc.length) := by
  intro n
  induction n with
  | zero => exact hinit
  | succ m ih =>
    rw [genAux_succ]
    rw [decodeStep_snd_length d expf tt enc _ _ m ih]
    exact ih

theorem genAux_cache_write_once (d : DalleBartDecoderTorch) (expf : ℚ → ℚ)
    (r : ℕ → ℚ) (tt : List (List ℕ)) (enc : List (List (List ℚ)))
    (hinit : d.initialCache.length = d.layers.length * (2 * enc.length))
    (s1 s2 : ℕ) (h : s1 ≤ s2) (b p : ℕ) (hp : p < s1) :
    cacheEntry (d.genAux expf r tt enc s2).2.2 b p =
      cacheEntry (d.genAux expf r tt enc s1).2.2 b p := by
  induction s2, h using Nat.le_induction with
  | base => rfl
  | succ m hm ih =>
    rw [genAux_succ]
    rw [decodeStep_cache_frame d expf tt enc _ _ m
      (genAux_cache_length d expf r tt enc hinit m) b p (by omega)]
    exact ih

theorem decodeStep_fst_eq (d : DalleBartDecoderTorch) (expf : ℚ → ℚ)
    (tt : List (List ℕ)) (enc : List (List (List ℚ)))
    (kv : List (List (List ℚ))) (l : List ℕ) :
    (d.decodeStep expf tt enc kv l).1 =
      truncProbs expf (d.decodeStepLogits expf tt enc kv l) := rfl

theorem blendLogits_length (a : ℚ) (lc lu : List ℚ) :
    (blendLogits a lc lu).length = min lc.length lu.length := by
  simp [blendLogits]

theorem decodeStepLogits_length (d : DalleBartDecoderTorch) (expf : ℚ → ℚ)
    (tt : List (List ℕ)) (enc : List (List (List ℚ)))
    (kv : List (List (List ℚ))) (tok idx : ℕ) (henc2 : 2 ≤ enc.length) :
    (d.decodeStepLogits expf tt enc kv [tok, idx]).length =
      d.lmHead.length := by
  rw [DalleBartDecoderTorch.decodeStepLogits]
  have hstate : (runLayers expf enc (crossAttentionMask d tt)
      (stepTokenIndex enc.length [tok, idx]) d.layers
      (decodeInitialState d enc.length [tok, idx]) kv).1.length =
      enc.length := by
    rw [runLayers_fst_length, decodeInitialState_length]
  have hrow : ∀ i, i < enc.length →
      ((((runLayers expf enc (crossAttentionMask d tt)
        (stepTokenIndex enc.length [tok, idx]) d.layers
        (decodeInitialState d enc.length [tok, idx]) kv).1.map
          d.finalLn).map fun s => d.lmHead.map fun wrow => dot wrow s).getD
            i []).length = d.lmHead.length := by
    intro i hi
    rw [getD_map_lt _ [] [] _ i (by rw [List.length_map, hstate]; exact hi)]
    simp
  simp only [blendLogits, List.length_zipWith]
  rw [hrow 0 (by omega), hrow 1 (by omega), Nat.min_self]

theorem decodeStep_probs_length (d : DalleBartDecoderTorch) (expf : ℚ → ℚ)
    (tt : List (List ℕ)) (enc : List (List (List ℚ)))
    (kv : List (List (List ℚ))) (tok idx : ℕ) (henc2 : 2 ≤ enc.length) :
    (d.decodeStep expf tt enc kv [tok, idx]).1.length = d.lmHead.length := by
  rw [decodeStep_fst_eq, truncProbs_length,
    decodeStepLogits_length d expf tt enc kv tok idx henc2]

theorem decodeStep_probs_sum_pos (d : DalleBartDecoderTorch) (expf : ℚ → ℚ)
    (hpos : ∀ x, 0 < expf x) (tt : List (List ℕ))
    (enc : List (List (List ℚ))) (kv : List (List (List ℚ)))
    (tok idx : ℕ) (henc2 : 2 ≤ enc.length) (hlm : 0 < d.lmHead.length) :
    0 < (d.decodeStep expf tt enc kv [tok, idx]).1.sum := by
  rw [decodeStep_fst_eq]
  refine truncProbs_sum_pos expf hpos _ ?_
  intro hnil
  have := decodeStepLogits_length d expf tt enc kv tok idx henc2
  rw [hnil] at this
  simp at this
  omega

theorem genAux_tokens_length (d : DalleBartDecoderTorch) (expf : ℚ → ℚ)
    (r : ℕ → ℚ) (tt : List (List ℕ)) (enc : List (List (List ℚ))) :
    ∀ n, (d.genAux expf r tt enc n).1.length = n := by
  intro n
  induction n with
  | zero => rfl
  | succ m ih =>
    rw [genAux_succ]
    simp [ih]

theorem genAux_tokens_bound (d : DalleBartDecoderTorch) (expf : ℚ → ℚ)
    (hpos : ∀ x, 0 < expf x) (r : ℕ → ℚ)
    (hr : ∀ i, 0 ≤ r i ∧ r i < 1) (tt : List (List ℕ))
    (enc : List (List (List ℚ))) (henc2 : 2 ≤ enc.length)
    (hlm : 0 < d.lmHead.length) :
    ∀ n, ∀ tok ∈ (d.genAux expf r tt enc n).1, tok < d.lmHead.length := by
  intro n
  induction n with
  | zero => intro tok htok; simp [DalleBartDecoderTorch.genAux] at htok
  | succ m ih =>
    intro tok htok
    rw [genAux_succ] at htok
    rcases List.mem_append.mp htok with h | h
    · exact ih tok h
    · rw [List.mem_singleton] at h
      subst h
      have hsum := decodeStep_probs_sum_pos d expf hpos tt enc
        (d.genAux expf r tt enc m).2.2 (d.genAux expf r tt enc m).2.1 m
        henc2 hlm
      have := multinomial_lt_length _ _ (hr m).1 (hr m).2 hsum
      rw [decodeStep_probs_length d expf tt enc _ _ m henc2] at this
      exact this

/-! ### Facts about the constructed decoder -/

theorem init_layers_length (ivs itc stc ec ahc gec lc bc st : ℕ)
    (vb : Bool) (w : DecoderWeights) :
    (DalleBartDecoderTorch.init ivs itc stc ec ahc gec lc bc st vb
      w).layers.length = lc := by
  simp [DalleBartDecoderTorch.init]

theorem init_lmHead_length (ivs itc stc ec ahc gec lc bc st : ℕ)
    (vb : Bool) (w : DecoderWeights) :
    (DalleBartDecoderTorch.init ivs itc stc ec ahc gec lc bc st vb
      w).lmHead.length = ivs + 1 := by
  simp [DalleBartDecoderTorch.init]

theorem init_sampleTokenCount (ivs itc stc ec ahc gec lc bc st : ℕ)
    (vb : Bool) (w : DecoderWeights) :
    (DalleBartDecoderTorch.init ivs itc stc ec ahc gec lc bc st vb
      w).sampleTokenCount = stc := rfl

theorem init_initialCache_length (ivs itc stc ec ahc gec lc bc st : ℕ)
    (vb : Bool) (w : DecoderWeights) :
    (DalleBartDecoderTorch.init ivs itc stc ec ahc gec lc bc st vb
      w).initialCache.length = lc * 2 * bc := by
  simp [DalleBartDecoderTorch.init, DalleBartDecoderTorch.initialCache]

theorem getD_eq_getElem {α : Type} (l : List α) (i : ℕ) (d : α)
    (h : i < l.length) : l.getD i d = l[i] := by
  rw [List.getD_eq_getElem?_getD, List.getElem?_eq_getElem h]
  rfl

theorem getD_range (n i : ℕ) (h : i < n) : (List.range n).getD i 0 = i := by
  rw [getD_eq_getElem _ _ _ (by simpa using h)]
  simp

theorem blendLogits_one : ∀ (lc lu : List ℚ), lc.length = lu.length →
    blendLogits 1 lc lu = lc := by
  intro lc
  induction lc with
  | nil => intro lu _; rfl
  | cons c ct ih =>
    intro lu h
    cases lu with
    | nil => simp at h
    | cons u ut =>
      simp only [blendLogits, List.zipWith_cons_cons]
      rw [show (1:ℚ) * c + (1 - 1) * u = c by ring]
      congr 1
      exact ih ut (by simpa using h)

theorem blendLogits_zero : ∀ (lc lu : List ℚ), lc.length = lu.length →
    blendLogits 0 lc lu = lu := by
  intro lc
  induction lc with
  | nil =>
    intro lu h
    have h0 : lu = [] := List.length_eq_zero.mp (by simpa using h.symm)
    subst h0
    rfl
  | cons c ct ih =>
    intro lu h
    cases lu with
    | nil => simp at h
    | cons u ut =>
      simp only [blendLogits, List.zipWith_cons_cons]
      rw [show (0:ℚ) * c + (1 - 0) * u = u by ring]
      congr 1
      exact ih ut (by simpa using h)

theorem blendLogits_affine : ∀ (lc lu : List ℚ) (a1 a2 t : ℚ),
    blendLogits (t * a1 + (1 - t) * a2) lc lu =
      List.zipWith (fun x y => t * x + (1 - t) * y)
        (blendLogits a1 lc lu) (blendLogits a2 lc lu) := by
  intro lc
  induction lc with
  | nil => intro lu a1 a2 t; rfl
  | cons c ct ih =>
    intro lu a1 a2 t
    cases lu with
    | nil => rfl
    | cons u ut =>
      simp only [blendLogits, List.zipWith_cons_cons]
      congr 1
      · ring
      · exact ih ut a1 a2 t

/-! ### Claim theorems -/

/-- C2: for every step index `s` in `[0, image_token_count)`, the causal
self-attention mask built by the decoder layer (`selfAttnMaskStacked`,
source lines 87-92) marks key position `p` as attendable if and only if
`p ≤ s`, in every batch branch.  The mask is a function of the step index
alone - `selfAttnMaskStacked` takes no cache argument - so the placeholder
content stored in the cache at masked positions cannot influence it. -/
theorem c2_causal_mask (imageTokenCount s batchCount b p : ℕ)
    (hs : s < imageTokenCount) (hp : p < imageTokenCount)
    (hb : b < batchCount) :
    ((selfAttnMaskStacked batchCount imageTokenCount s).getD b []).getD
      p false = true ↔ p ≤ s := by
  rw [selfAttnMaskStacked, getD_replicate_lt _ _ _ _ hb, selfAttnMaskRow,
    getD_map_lt _ false 0 _ p (by simpa using hp), getD_range _ _ hp]
  simp [Nat.lt_succ_iff]

/-- C2 witness: in a mask for step 1 over 4 positions and 2 branches,
position 1 of branch 0 is attendable since 1 ≤ 1. -/
theorem c2_witness :
    (((selfAttnMaskStacked 2 4 1).getD 0 []).getD 1 false = true) ↔
      1 ≤ 1 :=
  c2_causal_mask 4 1 2 0 1 (by decide) (by decide) (by decide)

/-- C3: for every blended logit vector (with at least 50 entries, so that
the 50th largest value exists), letting `m` be the 50th largest logit
(index 49 of the descending sort) and `maxLogit` the largest (index 0),
the weight vector `truncProbs` built by `decode_step` (source lines
206-217) assigns `exp(logit - maxLogit)` to every entry whose logit is
`≥ m` and exactly `0` to every entry whose logit is `< m`. -/
theorem c3_truncated_softmax (expf : ℚ → ℚ) (logits : List ℚ)
    (h50 : 50 ≤ logits.length) (i : ℕ) (hi : i < logits.length) :
    ((logits.insertionSort (· ≥ ·)).getD 49 0 ≤ logits.getD i 0 →
      (truncProbs expf logits).getD i 0 =
        expf (logits.getD i 0 - (logits.insertionSort (· ≥ ·)).getD 0 0)) ∧
    (logits.getD i 0 < (logits.insertionSort (· ≥ ·)).getD 49 0 →
      (truncProbs expf logits).getD i 0 = 0) := by
  rw [truncProbs_getD expf logits i hi, cutoff_eq_getD_49 logits h50]
  constructor
  · intro h
    rw [if_neg (not_lt.mpr h)]
  · intro h
    rw [if_pos h]

/-- C3 witness: on 50 tied zero logits the cutoff is 0 ≤ 0, so entry 0
keeps weight `exp(0 - 0)`. -/
theorem c3_witness :
    (truncProbs (fun x => 1 + x * x) (List.replicate 50 0)).getD 0 0 =
      (fun x => 1 + x * x) ((List.replicate 50 (0:ℚ)).getD 0 0 -
        ((List.replicate 50 (0:ℚ)).insertionSort (· ≥ ·)).getD 0 0) :=
  (c3_truncated_softmax (fun x => 1 + x * x) (List.replicate 50 0)
    (by decide) 0 (by decide)).1 (by decide)

/-- C5: the guidance blend (source line 204) is the stated pointwise
formula `a * cond + (1 - a) * uncond`; it reduces to the conditional
logits at `a = 1` and to the unconditional logits at `a = 0`, and the map
`a ↦ blend` is affine-linear: it commutes with affine combinations of the
coefficient.  Determinism is inherent to the embedding: `blendLogits` is a
pure function of `a` and the two branch logit vectors. -/
theorem c5_guidance_blend (a : ℚ) (lc lu : List ℚ)
    (hlen : lc.length = lu.length) :
    blendLogits a lc lu =
      List.zipWith (fun c u => a * c + (1 - a) * u) lc lu ∧
    blendLogits 1 lc lu = lc ∧
    blendLogits 0 lc lu = lu ∧
    ∀ (a1 a2 t : ℚ),
      blendLogits (t * a1 + (1 - t) * a2) lc lu =
        List.zipWith (fun x y => t * x + (1 - t) * y)
          (blendLogits a1 lc lu) (blendLogits a2 lc lu) :=
  ⟨rfl, blendLogits_one lc lu hlen, blendLogits_zero lc lu hlen,
    fun a1 a2 t => blendLogits_affine lc lu a1 a2 t⟩

/-- C5 witness: at `a = 1` the blend of `[1, 2]` with `[3, 4]` is the pure
conditional vector `[1, 2]`. -/
theorem c5_witness : blendLogits 1 [1, 2] [3, 4] = [1, 2] :=
  (c5_guidance_blend 2 [1, 2] [3, 4] rfl).2.1

/-- C8: the weight vector built by `decode_step` is never all-zero: the
entry holding the maximum blended logit receives exactly
`exp(maxLogit - maxLogit) = exp 0 = 1`, so at least one weight is strictly
positive and the categorical draw has nonempty support. -/
theorem c8_top_weight_one (expf : ℚ → ℚ) (hexp0 : expf 0 = 1)
    (logits : List ℚ) (i : ℕ) (hi : i < logits.length)
    (hmax : ∀ j, j < logits.length → logits.getD j 0 ≤ logits.getD i 0) :
    (truncProbs expf logits).getD i 0 = 1 ∧
    ∃ j, j < (truncProbs expf logits).length ∧
      0 < (truncProbs expf logits).getD j 0 := by
  have h1 : (truncProbs expf logits).getD i 0 = expf 0 :=
    truncProbs_argmax expf logits i hi hmax
  refine ⟨by rw [h1, hexp0], ⟨i, ?_, ?_⟩⟩
  · rw [truncProbs_length]; exact hi
  · rw [h1, hexp0]; norm_num

/-- C8 witness: in `[5, 3, 4]` the maximum sits at index 0 and its weight
is exactly 1 under `exp 0 = 1`. -/
theorem c8_witness :
    (truncProbs (fun x => 1 + x * x) [5, 3, 4]).getD 0 0 = 1 ∧
    ∃ j, j < (truncProbs (fun x => 1 + x * x) [5, 3, 4]).length ∧
      0 < (truncProbs (fun x => 1 + x * x) [5, 3, 4]).getD j 0 :=
  c8_top_weight_one (fun x => 1 + x * x) (by norm_num) [5, 3, 4] 0
    (by decide) (by decide)

/-- C9: the cross-attention padding mask computed by `decode_step` (source
line 181) masks out a prompt position if and only if the token there
equals `1`, and the pad id is hardcoded: whatever hyperparameters the
constructor receives, `pad_token = 1` (source line 140) - it is not a
configurable parameter of the stack. -/
theorem c9_pad_mask (ivs itc stc ec ahc gec lc bc st : ℕ) (vb : Bool)
    (w : DecoderWeights) (tt : List (List ℕ)) (b p : ℕ)
    (hb : b < tt.length) (hp : p < (tt.getD b []).length) :
    (DalleBartDecoderTorch.init ivs itc stc ec ahc gec lc bc st vb
      w).padToken = 1 ∧
    (((crossAttentionMask (DalleBartDecoderTorch.init ivs itc stc ec ahc
        gec lc bc st vb w) tt).getD b []).getD p true = false ↔
      (tt.getD b []).getD p 0 = 1) := by
  refine ⟨rfl, ?_⟩
  rw [crossAttentionMask, getD_map_lt _ [] [] tt b hb,
    getD_map_lt _ true 0 _ p hp]
  simp [DalleBartDecoderTorch.init]

/-- C9 witness: with prompt row `[1, 2]`, position 0 (token 1) is masked
out and the built decoder's pad token is 1. -/
theorem c9_witness :
    (DalleBartDecoderTorch.init 3 2 2 1 1 1 1 2 0 false
      trivWeights).padToken = 1 ∧
    (((crossAttentionMask (DalleBartDecoderTorch.init 3 2 2 1 1 1 1 2 0
        false trivWeights) [[1, 2]]).getD 0 []).getD 0 true = false ↔
      (([[1, 2]] : List (List ℕ)).getD 0 []).getD 0 0 = 1) :=
  c9_pad_mask 3 2 2 1 1 1 1 2 0 false trivWeights [[1, 2]] 0 0
    (by decide) (by decide)

/-- C10: `decode_step` uses only the first entry of
`prev_token_and_index` as the previous token and only the second as the
step index (source lines 183-188, 197), and replicates them identically
over the batch: every branch row of the embedded state equals the same
vector built from `l[0]` (token embedding) and `l[1]` (position
embedding), and the index handed to every layer is `l[1]` - the branches
differ only through the encoder memory. -/
theorem c10_branches_share_token_and_index (d : DalleBartDecoderTorch)
    (B : ℕ) (l : List ℕ) (hl : l.length = 2) (b : ℕ) (hb : b < B) :
    (decodeInitialState d B l).length = B ∧
    (decodeInitialState d B l).getD b [] =
      d.layernormEmbedding (vadd (d.embedTokens (l.getD 0 0))
        (d.embedPositions (l.getD 1 0))) ∧
    (1 ≤ B → stepTokenIndex B l = l.getD 1 0) := by
  rcases List.length_eq_two.mp hl with ⟨x, y, rfl⟩
  refine ⟨decodeInitialState_length d B x y, ?_, fun hB =>
    stepTokenIndex_eq B x y hB⟩
  rw [decodeInitialState]
  simp only [List.take_succ_cons, List.take_zero, List.drop_succ_cons,
    List.drop_zero, flatten_replicate_singleton,
    zipWith_replicate_replicate, List.map_replicate]
  exact getD_replicate_lt _ [] B b hb

/-- C10 witness: with `prev_token_and_index = [3, 1]` and two branches,
branch 1 carries the same embedded state as every other branch, built from
token 3 and position 1, and the layer step index is 1. -/
theorem c10_witness :
    (decodeInitialState (DalleBartDecoderTorch.init 3 2 2 1 1 1 1 2 0 false
      trivWeights) 2 [3, 1]).length = 2 ∧
    (decodeInitialState (DalleBartDecoderTorch.init 3 2 2 1 1 1 1 2 0 false
      trivWeights) 2 [3, 1]).getD 1 [] =
      (DalleBartDecoderTorch.init 3 2 2 1 1 1 1 2 0 false
        trivWeights).layernormEmbedding
        (vadd ((DalleBartDecoderTorch.init 3 2 2 1 1 1 1 2 0 false
          trivWeights).embedTokens (([3, 1] : List ℕ).getD 0 0))
        ((DalleBartDecoderTorch.init 3 2 2 1 1 1 1 2 0 false
          trivWeights).embedPositions (([3, 1] : List ℕ).getD 1 0))) ∧
    (1 ≤ 2 → stepTokenIndex 2 [3, 1] = ([3, 1] : List ℕ).getD 1 0) :=
  c10_branches_share_token_and_index
    (DalleBartDecoderTorch.init 3 2 2 1 1 1 1 2 0 false trivWeights) 2
    [3, 1] rfl 1 (by decide)

/-- C6 counterexample: the constructor has no guidance-coefficient
parameter.  Construct the decoder with every numeric hyperparameter equal
to 9: whichever supplied value one reads as the coefficient `a`, the
coefficient the blend actually uses is the hardcoded 10, not 9 - blending
conditional logits `[1]` with unconditional logits `[0]` yields `[10]`. -/
theorem c6_counterexample :
    blendLogits (DalleBartDecoderTorch.init 9 9 9 9 9 9 9 9 9 true
      trivWeights).conditionFactor [1] [0] = [10] ∧
    (DalleBartDecoderTorch.init 9 9 9 9 9 9 9 9 9 true
      trivWeights).conditionFactor ≠ 9 := by
  constructor
  · show blendLogits 10 [1] [0] = [10]
    norm_num [blendLogits]
  · show (10 : ℚ) ≠ 9
    norm_num

/-- C6 amended: the guidance coefficient is not consumed from the
constructor's hyperparameters: `__init__` (source lines 122-146) has no
such parameter and stores the constant `condition_factor = 10` (line 141),
so for every choice of the ten actual constructor arguments the
coefficient `decode_step` blends with (definitionally
`d.conditionFactor`, source lines 203-204) equals 10. -/
theorem c6_condition_factor_constant (ivs itc stc ec ahc gec lc bc st : ℕ)
    (vb : Bool) (w : DecoderWeights) :
    (DalleBartDecoderTorch.init ivs itc stc ec ahc gec lc bc st vb
      w).conditionFactor = 10 := rfl

/-- C4 counterexample: with 51 tied blended logits (all zero, vocabulary of
51 entries) the 50th largest value is 0 and every entry satisfies
`logit ≥ m`, so every one of the 51 entries receives the nonzero weight
`exp 0`: the support of the weight vector has 51 elements and therefore is
not contained in any set of at most 50 vocabulary indices - in particular
not in "the 50 highest-logit vocabulary indices", however ties are
broken. -/
theorem c4_counterexample :
    ¬ ∃ S : Finset ℕ, S.card ≤ 50 ∧
      ∀ i, (truncProbs (fun _ => (1:ℚ)) (List.replicate 51 0)).getD i 0 ≠ 0
        → i ∈ S := by
  have hval : truncProbs (fun _ => (1:ℚ)) (List.replicate 51 0) =
      List.replicate 51 1 := by decide
  rintro ⟨S, hcard, hsub⟩
  have hfull : Finset.range 51 ⊆ S := by
    intro i hi
    refine hsub i ?_
    rw [hval, getD_replicate_lt 1 0 51 i (Finset.mem_range.mp hi)]
    norm_num
  have := Finset.card_le_card hfull
  rw [Finset.card_range] at this
  omega

/-- C4 amended: for every blended logit vector (at least 50 entries) and
every draw `u ∈ [0, 1)`, the token index sampled by `torch.multinomial`
from the `decode_step` weight vector lies among the vocabulary indices
with fewer than 50 strictly-greater blended logits - the 50 highest-logit
indices up to ties at the cutoff.  (When the 50th and 51st largest logits
differ, that set is exactly the 50 highest-logit indices; with ties at the
cutoff the support may be larger, as the counterexample shows.) -/
theorem c4_sample_in_top50_up_to_ties (expf : ℚ → ℚ)
    (hpos : ∀ x, 0 < expf x) (logits : List ℚ) (h50 : 50 ≤ logits.length)
    (u : ℚ) (hu0 : 0 ≤ u) (hu1 : u < 1) :
    multinomial (truncProbs expf logits) u < logits.length ∧
    logits.countP (fun y => decide
      (logits.getD (multinomial (truncProbs expf logits) u) 0 < y)) < 50 := by
  have hne : logits ≠ [] := by
    intro h
    rw [h] at h50
    simp at h50
  have hsum := truncProbs_sum_pos expf hpos logits hne
  have hlt := multinomial_lt_length _ u hu0 hu1 hsum
  rw [truncProbs_length] at hlt
  refine ⟨hlt, ?_⟩
  have hwpos := multinomial_weight_pos _ u hu0 hu1 hsum
  have hcut := truncProbs_support_le_cutoff expf logits _ hlt
    (ne_of_gt hwpos)
  exact countP_gt_lt_50 logits h50 _ hcut

/-- C4 witness: on 50 tied zero logits with draw 0, the sampled index is
in range and fewer than 50 entries strictly exceed its logit. -/
theorem c4_witness :
    multinomial (truncProbs (fun _ => (1:ℚ)) (List.replicate 50 0)) 0 <
      (List.replicate 50 (0:ℚ)).length ∧
    (List.replicate 50 (0:ℚ)).countP (fun y => decide
      ((List.replicate 50 (0:ℚ)).getD
        (multinomial (truncProbs (fun _ => (1:ℚ)) (List.replicate 50 0)) 0)
        0 < y)) < 50 :=
  c4_sample_in_top50_up_to_ties (fun _ => 1) (fun _ => one_pos)
    (List.replicate 50 0) (by decide) 0 (le_refl 0) one_pos

/-- C1: the self-attention cache update (source lines 42-51) writes the
newly projected key/value pair of the current token into slot `s` of every
cache row - key rows take `k_proj` of their branch's state, value rows
`v_proj` - and leaves the value stored at every other position unchanged;
consequently, across a generation run of the built decoder stack, for all
positions `p` and steps `s1 < s2` with `p < s1`, the cache entry at `p`
after step `s2` equals the cache entry at `p` after step `s1`. -/
theorem c1_cache_write_once (a : AttentionTorch) (expf : ℚ → ℚ)
    (ds : List (List ℚ)) (kvs : List (List (List ℚ)))
    (mask : List (List Bool)) (s : ℕ)
    (hshape : kvs.length = 2 * ds.length)
    (ivs itc stc ec ahc gec lc bc st : ℕ) (vb : Bool) (w : DecoderWeights)
    (expf2 : ℚ → ℚ) (r : ℕ → ℚ) (tt : List (List ℕ))
    (enc : List (List (List ℚ))) (henc : enc.length = bc) :
    (∀ b p, p ≠ s →
      ((DecoderSelfAttentionTorch.forward a expf ds kvs mask s).2.getD
        b []).getD p [] = (kvs.getD b []).getD p []) ∧
    (∀ b, b < ds.length → s < (kvs.getD b []).length →
      ((DecoderSelfAttentionTorch.forward a expf ds kvs mask s).2.getD
        b []).getD s [] = a.kProj (ds.getD b [])) ∧
    (∀ b, b < ds.length → s < (kvs.getD (ds.length + b) []).length →
      ((DecoderSelfAttentionTorch.forward a expf ds kvs mask s).2.getD
        (ds.length + b) []).getD s [] = a.vProj (ds.getD b [])) ∧
    (∀ s1 s2 b p, s1 < s2 → p < s1 →
      cacheEntry ((DalleBartDecoderTorch.init ivs itc stc ec ahc gec lc bc
        st vb w).genAux expf2 r tt enc s2).2.2 b p =
      cacheEntry ((DalleBartDecoderTorch.init ivs itc stc ec ahc gec lc bc
        st vb w).genAux expf2 r tt enc s1).2.2 b p) := by
  have hlen : kvs.length = (ds.map a.kProj ++ ds.map a.vProj).length := by
    simp only [List.length_append, List.length_map]
    omega
  refine ⟨?_, ?_, ?_, ?_⟩
  · intro b p hp
    rw [selfattn_forward_snd, getD_zipWith_set s [] kvs _ b hlen,
      getD_set_ne _ [] _ s p hp]
  · intro b hb hs
    rw [selfattn_forward_snd, getD_zipWith_set s [] kvs _ b hlen,
      getD_set_self _ [] _ s hs,
      getD_append_left [] _ _ b (by simpa using hb),
      getD_map_lt a.kProj [] [] ds b hb]
  · intro b hb hs
    rw [selfattn_forward_snd, getD_zipWith_set s [] kvs _ (ds.length + b) hlen,
      getD_set_self _ [] _ s hs,
      getD_append_ge [] _ _ (ds.length + b) (by simp)]
    simp only [List.length_map, Nat.add_sub_cancel_left]
    rw [getD_map_lt a.vProj [] [] ds b hb]
  · intro s1 s2 b p h12 hp
    have hinit : (DalleBartDecoderTorch.init ivs itc stc ec ahc gec lc bc
        st vb w).initialCache.length =
        (DalleBartDecoderTorch.init ivs itc stc ec ahc gec lc bc st vb
          w).layers.length * (2 * enc.length) := by
      rw [init_initialCache_length, init_layers_length, henc]
      ring
    exact genAux_cache_write_once _ expf2 r tt enc hinit s1 s2
      (le_of_lt h12) b p hp

/-- C1 witness: a concrete two-row cache with step 0 leaves position 1
untouched, and in a two-step run of a one-layer decoder the entry written
at step 0 is unchanged after step 2. -/
theorem c1_witness :
    (((DecoderSelfAttentionTorch.forward trivAttention (fun _ => 1)
        [[0]] [[[5], [6]], [[7], [8]]] [[true]] 0).2.getD 0 []).getD 1 [] =
      (([[[5], [6]], [[7], [8]]] : List (List (List ℚ))).getD 0 []).getD
        1 []) ∧
    cacheEntry ((DalleBartDecoderTorch.init 0 2 2 1 1 1 1 1 0 false
        trivWeights).genAux (fun _ => 1) (fun _ => 0) [[1]] [[[1]]]
        2).2.2 0 0 =
      cacheEntry ((DalleBartDecoderTorch.init 0 2 2 1 1 1 1 1 0 false
        trivWeights).genAux (fun _ => 1) (fun _ => 0) [[1]] [[[1]]]
        1).2.2 0 0 := by
  have h := c1_cache_write_once trivAttention (fun _ => 1) [[0]]
    [[[5], [6]], [[7], [8]]] [[true]] 0 (by decide) 0 2 2 1 1 1 1 1 0
    false trivWeights (fun _ => 1) (fun _ => 0) [[1]] [[[1]]] rfl
  exact ⟨h.1 0 1 (by decide), h.2.2.2 1 2 0 0 (by decide) (by decide)⟩

/-- C7: a full generation run of the built decoder stack with
`sample_token_count = N` returns exactly `N` tokens, and - the categorical
draw being `torch.multinomial` over the `decode_step` weight vector of
length `image_vocab_size + 1`, whose total mass is positive - every
returned token id lies in `[0, image_vocab_size]`.  The encoder memory has
the two conditional/unconditional branch rows; `exp` is positive and the
random draws lie in `[0, 1)`. -/
theorem c7_generation_length_and_range (ivs itc stc ec ahc gec lc bc st : ℕ)
    (vb : Bool) (w : DecoderWeights) (expf : ℚ → ℚ)
    (hpos : ∀ x, 0 < expf x) (r : ℕ → ℚ) (hr : ∀ i, 0 ≤ r i ∧ r i < 1)
    (tt : List (List ℕ)) (enc : List (List (List ℚ)))
    (henc : enc.length = 2) :
    ((DalleBartDecoderTorch.init ivs itc stc ec ahc gec lc bc st vb
      w).forward expf r tt enc).length = stc ∧
    ∀ tok ∈ (DalleBartDecoderTorch.init ivs itc stc ec ahc gec lc bc st vb
      w).forward expf r tt enc, tok ≤ ivs := by
  constructor
  · rw [DalleBartDecoderTorch.forward, genAux_tokens_length,
      init_sampleTokenCount]
  · intro tok htok
    rw [DalleBartDecoderTorch.forward] at htok
    have := genAux_tokens_bound _ expf hpos r hr tt enc (by omega)
      (by rw [init_lmHead_length]; omega) _ tok htok
    rw [init_lmHead_length] at this
    omega

/-- C7 witness: a two-step run of a one-layer stack with a 4-token image
vocabulary returns exactly 2 tokens. -/
theorem c7_witness :
    ((DalleBartDecoderTorch.init 3 2 2 1 1 1 1 2 0 false
      trivWeights).forward (fun _ => 1) (fun _ => 0) [[1]]
      [[[1]], [[1]]]).length = 2 :=
  (c7_generation_length_and_range 3 2 2 1 1 1 1 2 0 false trivWeights
    (fun _ => 1) (fun _ => one_pos) (fun _ => 0)
    (fun _ => ⟨le_refl 0, one_pos⟩) [[1]] [[[1]], [[1]]] rfl).1
